import Mathlib

/-!
Verification of the markup-engine core of `deduce` (file `deduce/utility.py`):
tag scanning (`find_tags`, `split_tags`), recursive tag flattening (`flatten`,
`flatten_text_all_phi`), span normalization (`flatten_text`), annotation
indexing (`parse_tag`, `get_annotations`, `get_first_non_whitespace`) and
trie-based token merging (`merge_triebased`).

Strings are embedded as Lean `String` (a wrapper around `List Char`); Python
exceptions are embedded as `Except String`; the Python `while`/`for` loops are
embedded as structurally recursive functions over the character list, threading
the same cursor variables as the source.
-/

/-- Python whitespace predicate (`str.isspace` / `lstrip` / `strip` / regex
`\s`), restricted to its ASCII part; the Unicode whitespace code points that
Python additionally strips are not modelled (no claim depends on them). -/
def pyIsSpace (c : Char) : Bool :=
  c = ' ' || c = '\t' || c = '\n' || c = '\r' || c = '\x0b' || c = '\x0c'

/-- Concatenation of a list of strings in order with no separator
(Python `"".join(...)`, also used to state concatenation properties). -/
def str_concat (l : List String) : String := ⟨(l.map String.data).flatten⟩

/-- Decidable equality for `Except`, used to evaluate embedded functions on
concrete inputs. -/
def exceptDecEq {e a : Type} [DecidableEq e] [DecidableEq a] :
    DecidableEq (Except e a) := fun x y =>
  match x, y with
  | .error u, .error v =>
    if h : u = v then .isTrue (by rw [h]) else .isFalse (fun hc => h (by cases hc; rfl))
  | .error _, .ok _ => .isFalse (fun hc => by cases hc)
  | .ok _, .error _ => .isFalse (fun hc => by cases hc)
  | .ok u, .ok v =>
    if h : u = v then .isTrue (by rw [h]) else .isFalse (fun hc => h (by cases hc; rfl))

instance {e a : Type} [DecidableEq e] [DecidableEq a] : DecidableEq (Except e a) :=
  exceptDecEq

/-- Loop body of `split_tags` (utility.py lines 279-323): a single scan over
the characters with an integer nesting depth, recording segment boundaries.
`cs` is the full character list (`text`), `rest` the characters still to scan
(so `rest = cs.drop index`), and Python's slices `text[startpos:index]` become
`(cs.take index).drop startpos`.  The final clause is the trailing
`splitbytags.append(text[startpos:])`. -/
def split_tags_go (cs : List Char) :
    List Char → Nat → Int → Nat → List (List Char) → List (List Char)
  | [], _, _, startpos, acc => acc ++ [cs.drop startpos]
  | c :: rest, index, nest_depth, startpos, acc =>
    if c = '<' then
      if nest_depth = 0 then
        split_tags_go cs rest (index + 1) (nest_depth + 1) index
          (acc ++ [(cs.take index).drop startpos])
      else
        split_tags_go cs rest (index + 1) (nest_depth + 1) startpos acc
    else if c = '>' then
      if nest_depth - 1 = 0 then
        split_tags_go cs rest (index + 1) (nest_depth - 1) (index + 1)
          (acc ++ [(cs.take (index + 1)).drop startpos])
      else
        split_tags_go cs rest (index + 1) (nest_depth - 1) startpos acc
    else
      split_tags_go cs rest (index + 1) nest_depth startpos acc

/-- `split_tags` (utility.py lines 279-323): splits a text into literal runs
and maximal top-level tags; empty segments are filtered out at the end
(`[x for x in splitbytags if len(x) > 0]`). -/
def split_tags (text : String) : List String :=
  ((split_tags_go text.data text.data 0 0 0 []).map (fun l => String.mk l)).filter
    (fun x => x.length > 0)

/-- Loop body of `find_tags` (utility.py lines 242-276): same depth-tracking
scan as `split_tags_go` but only the maximal top-level tags are recorded,
and there is no trailing append. -/
def find_tags_go (cs : List Char) :
    List Char → Nat → Int → Nat → List (List Char) → List (List Char)
  | [], _, _, _, acc => acc
  | c :: rest, index, nest_depth, startpos, acc =>
    if c = '<' then
      find_tags_go cs rest (index + 1) (nest_depth + 1)
        (if nest_depth = 0 then index else startpos) acc
    else if c = '>' then
      if nest_depth - 1 = 0 then
        find_tags_go cs rest (index + 1) (nest_depth - 1) startpos
          (acc ++ [(cs.take (index + 1)).drop startpos])
      else
        find_tags_go cs rest (index + 1) (nest_depth - 1) startpos acc
    else
      find_tags_go cs rest (index + 1) nest_depth startpos acc

/-- `find_tags` (utility.py lines 242-276): returns all maximal top-level
tags of a text in document order. -/
def find_tags (text : String) : List String :=
  (find_tags_go text.data text.data 0 0 0 []).map (fun l => String.mk l)

-- ### Lemmas about the scanning loops

/-- Splitting a list at `i ≤ cs.length`: the part of the prefix from `s` on,
followed by the suffix from `i`, is the suffix from `s` (for `s ≤ i`). -/
theorem drop_take_drop (cs : List Char) (s i : Nat) (hsi : s ≤ i)
    (hil : i ≤ cs.length) :
    (cs.take i).drop s ++ cs.drop i = cs.drop s := by
  conv_rhs => rw [← List.take_append_drop i cs]
  rw [List.drop_append_eq_append_drop]
  have hlen : (cs.take i).length = i := by
    simp [List.length_take, Nat.min_eq_left hil]
  rw [hlen, Nat.sub_eq_zero_of_le hsi, List.drop_zero]

/-- Invariant of the `split_tags` scan: the emitted segments concatenate to
the processed prefix, so the final result concatenates to the whole text. -/
theorem split_tags_go_join (cs : List Char) :
    ∀ (rest : List Char) (index : Nat) (nest_depth : Int) (startpos : Nat)
      (acc : List (List Char)),
      rest = cs.drop index → startpos ≤ index →
      (split_tags_go cs rest index nest_depth startpos acc).flatten =
        acc.flatten ++ cs.drop startpos := by
  intro rest
  induction rest with
  | nil =>
    intro index nest_depth startpos acc hrest _
    simp [split_tags_go]
  | cons c rest ih =>
    intro index nest_depth startpos acc hrest hsp
    have hlt : index < cs.length := by
      by_contra h
      have : cs.drop index = [] := List.drop_eq_nil_of_le (Nat.le_of_not_lt h)
      rw [← hrest] at this
      exact List.cons_ne_nil _ _ this
    have hrest' : rest = cs.drop (index + 1) := by
      have := congrArg List.tail hrest
      simpa [List.tail_drop] using this
    simp only [split_tags_go]
    by_cases hc : c = '<'
    · simp only [hc, if_true]
      by_cases hd : nest_depth = 0
      · simp only [hd, if_true]
        rw [ih (index + 1) _ index _ hrest' (Nat.le_succ index)]
        simp only [List.flatten_append, List.flatten_cons, List.flatten_nil,
          List.append_nil, List.append_assoc]
        congr 1
        exact drop_take_drop cs startpos index hsp (Nat.le_of_lt hlt)
      · simp only [hd, if_false]
        exact ih (index + 1) _ startpos _ hrest' (hsp.trans (Nat.le_succ _))
    · simp only [hc, if_false]
      by_cases hc' : c = '>'
      · simp only [hc', if_true]
        by_cases hd : nest_depth - 1 = 0
        · simp only [hd, if_true]
          rw [ih (index + 1) _ (index + 1) _ hrest' (Nat.le_refl _)]
          simp only [List.flatten_append, List.flatten_cons, List.flatten_nil,
            List.append_nil, List.append_assoc]
          congr 1
          exact drop_take_drop cs startpos (index + 1) (hsp.trans (Nat.le_succ _)) hlt
        · simp only [hd, if_false]
          exact ih (index + 1) _ startpos _ hrest' (hsp.trans (Nat.le_succ _))
      · simp only [hc', if_false]
        exact ih (index + 1) _ startpos _ hrest' (hsp.trans (Nat.le_succ _))

/-- Mapping back to character lists commutes with the final nonempty filter
of `split_tags`. -/
theorem map_data_filter_map_mk (segs : List (List Char)) :
    ((segs.map (fun l => String.mk l)).filter (fun x => x.length > 0)).map String.data =
      segs.filter (fun l => l.length > 0) := by
  induction segs with
  | nil => rfl
  | cons l segs ih =>
    by_cases h : l.length > 0
    · simp only [List.map_cons, List.filter_cons]
      have h' : (String.mk l).length > 0 := h
      simp [h, h', ih]
    · simp only [List.map_cons, List.filter_cons]
      have h' : ¬ (String.mk l).length > 0 := h
      simp [h, h', ih]

/-- Dropping empty segments does not change the concatenation. -/
theorem flatten_filter_pos_length (segs : List (List Char)) :
    (segs.filter (fun l => l.length > 0)).flatten = segs.flatten := by
  induction segs with
  | nil => rfl
  | cons l segs ih =>
    by_cases h : l.length > 0
    · simp [List.filter_cons, h, ih]
    · have : l = [] := List.eq_nil_of_length_eq_zero (Nat.eq_zero_of_not_pos h)
      simp [List.filter_cons, h, ih, this]

/-- C2: for every text string (no balancedness precondition), concatenating in
order all segments returned by `split_tags text` reproduces `text` exactly, and
no returned segment is the empty string. -/
theorem split_tags_concat_exact (text : String) :
    str_concat (split_tags text) = text ∧ ∀ s ∈ split_tags text, s ≠ "" := by
  constructor
  · have hjoin : (split_tags_go text.data text.data 0 0 0 []).flatten = text.data := by
      have := split_tags_go_join text.data text.data 0 0 0 [] rfl (Nat.le_refl 0)
      simpa using this
    show str_concat (split_tags text) = text
    unfold str_concat split_tags
    rw [map_data_filter_map_mk, flatten_filter_pos_length, hjoin]
  · intro s hs
    unfold split_tags at hs
    have := List.of_mem_filter hs
    intro hempty
    rw [hempty] at this
    simp at this

-- ### TagFlattener

/-- Python `s.split(" ", 1)` when the result is used as a pair (utility.py
lines 219-223): `none` when no space occurs (in the source, accessing
`tagspl[1]` then raises `IndexError`), otherwise the part before the first
space and the part after it. -/
def splitFirstSpace (cs : List Char) : Option (List Char × List Char) :=
  if ' ' ∈ cs then
    some (cs.takeWhile (fun c => c ≠ ' '), (cs.dropWhile (fun c => c ≠ ' ')).drop 1)
  else none

/-- Loop body of `flatten` (utility.py lines 229-236): accumulate the child
type names and child values onto the running pair. `rec` is the recursive
call. -/
def flatten_step (rec : String → Except String (String × String))
    (acc : String × String) (part : String) : Except String (String × String) := do
  let fl ← rec part
  pure (acc.1 ++ fl.1, acc.2 ++ fl.2)

/-- Fuel-indexed version of `flatten` (utility.py lines 203-239).  The fuel
only serves to make the nested recursion structural; `flattenF_congr` shows
any fuel above the tag length gives the same result, and `flatten` below
instantiates it.  Python's `tag[1:-1]` is `(tag.data.drop 1).dropLast`;
`IndexError` models the source's `tagspl[1]` on a space-free tag. -/
def flattenF : Nat → String → Except String (String × String)
  | 0, _ => .error "OutOfFuel"
  | fuel + 1, tag =>
    if '<' ∈ tag.data then
      match splitFirstSpace ((tag.data.drop 1).dropLast) with
      | none => .error "IndexError"
      | some (tagname, tagrest) =>
        (split_tags (String.mk tagrest)).foldlM (flatten_step (flattenF fuel))
          (String.mk tagname, "")
    else .ok ("", tag)

/-- `flatten` (utility.py lines 203-239): recursively flattens one tag to a
(type, value) pair; e.g. `<INITIAL A <NAME Surname>>` becomes
`(INITIALNAME, A Surname)`. -/
def flatten (tag : String) : Except String (String × String) :=
  flattenF (tag.data.length + 1) tag

/-- `parse_tag` (utility.py lines 370-377): splits a single non-nested tag at
the first space into its type and text.  The source's
`tag.index(" ")` raises `ValueError` when there is no space; the spec calls
this failure `MalformedTag`, which is the error string used here. -/
def parse_tag (tag : String) : Except String (String × String) :=
  match tag.data.findIdx? (fun c => c = ' ') with
  | none => .error "MalformedTag"
  | some split_ix =>
    .ok (String.mk ((tag.data.take split_ix).drop 1),
         String.mk ((tag.data.take (tag.data.length - 1)).drop (split_ix + 1)))

/-- A member of a list of lists is no longer than the concatenation. -/
theorem length_le_flatten_of_mem {l : List Char} {L : List (List Char)}
    (h : l ∈ L) : l.length ≤ L.flatten.length := by
  induction L with
  | nil => cases h
  | cons x L ih =>
    rcases List.mem_cons.mp h with rfl | h'
    · simp [List.flatten_cons]
    · simp only [List.flatten_cons, List.length_append]
      exact (ih h').trans (Nat.le_add_left _ _)

/-- Each segment returned by `split_tags` is at most as long as the input. -/
theorem split_tags_mem_length_le {part s : String} (h : part ∈ split_tags s) :
    part.data.length ≤ s.data.length := by
  have hdata : part.data ∈ (split_tags s).map String.data := List.mem_map_of_mem _ h
  rw [show (split_tags s).map String.data =
      (split_tags_go s.data s.data 0 0 0 []).filter (fun l => l.length > 0) from
      map_data_filter_map_mk _] at hdata
  have hmem := List.mem_of_mem_filter hdata
  have hjoin : (split_tags_go s.data s.data 0 0 0 []).flatten = s.data := by
    simpa using split_tags_go_join s.data s.data 0 0 0 [] rfl (Nat.le_refl 0)
  calc part.data.length ≤ (split_tags_go s.data s.data 0 0 0 []).flatten.length :=
        length_le_flatten_of_mem hmem
    _ = s.data.length := by rw [hjoin]

/-- In the recursive case of `flatten`, each child segment is strictly shorter
than the enclosing tag. -/
theorem flatten_child_lt {tag part : String} {name rest : List Char}
    (hhook : '<' ∈ tag.data)
    (hsp : splitFirstSpace ((tag.data.drop 1).dropLast) = some (name, rest))
    (hpart : part ∈ split_tags (String.mk rest)) :
    part.data.length < tag.data.length := by
  have hlen1 : part.data.length ≤ rest.length := split_tags_mem_length_le hpart
  unfold splitFirstSpace at hsp
  by_cases hmem : ' ' ∈ (tag.data.drop 1).dropLast
  · rw [if_pos hmem] at hsp
    have hrest : rest = (((tag.data.drop 1).dropLast).dropWhile (fun c => c ≠ ' ')).drop 1 := by
      have := (Option.some.injEq _ _).mp hsp
      exact (congrArg Prod.snd this).symm
    have hne : ((tag.data.drop 1).dropLast).dropWhile (fun c => c ≠ ' ') ≠ [] := by
      intro hnil
      have := List.dropWhile_eq_nil_iff.mp hnil ' ' hmem
      simp at this
    have hpos : 0 < (((tag.data.drop 1).dropLast).dropWhile (fun c => c ≠ ' ')).length :=
      List.length_pos.mpr hne
    have h2 : rest.length <
        (((tag.data.drop 1).dropLast).dropWhile (fun c => c ≠ ' ')).length := by
      rw [hrest, List.length_drop]
      omega
    have h3 : (((tag.data.drop 1).dropLast).dropWhile (fun c => c ≠ ' ')).length ≤
        ((tag.data.drop 1).dropLast).length :=
      (List.dropWhile_suffix _).length_le
    have h4 : ((tag.data.drop 1).dropLast).length ≤ tag.data.length := by
      have := List.length_dropLast (tag.data.drop 1)
      have := List.length_drop 1 tag.data
      simp only [List.length_dropLast, List.length_drop]
      omega
    omega
  · rw [if_neg hmem] at hsp
    cases hsp

/-- Fold congruence for `Except`-valued step functions. -/
theorem foldlM_except_congr {α β ε : Type} (l : List α)
    (F G : β → α → Except ε β) (h : ∀ a ∈ l, ∀ b, F b a = G b a) :
    ∀ b, l.foldlM F b = l.foldlM G b := by
  induction l with
  | nil => intro b; rfl
  | cons a l ih =>
    intro b
    rw [List.foldlM_cons, List.foldlM_cons, h a (List.mem_cons_self a l) b]
    cases G b a with
    | error e => rfl
    | ok b' =>
      show Except.ok b' >>= _ = Except.ok b' >>= _
      show (l.foldlM F b') = (l.foldlM G b')
      exact ih (fun a ha b => h a (List.mem_cons_of_mem _ ha) b) b'

/-- Any fuel above the tag length computes the same value of `flattenF`:
the fuel is an artefact of the embedding, not of the algorithm. -/
theorem flattenF_congr :
    ∀ (n : Nat) (tag : String), tag.data.length ≤ n →
      ∀ (f₁ f₂ : Nat), tag.data.length < f₁ → tag.data.length < f₂ →
      flattenF f₁ tag = flattenF f₂ tag := by
  intro n
  induction n with
  | zero =>
    intro tag hlen f₁ f₂ h₁ h₂
    have hnil : tag.data = [] := List.eq_nil_of_length_eq_zero (Nat.le_zero.mp hlen)
    obtain ⟨g₁, rfl⟩ : ∃ g, f₁ = g + 1 := ⟨f₁ - 1, by omega⟩
    obtain ⟨g₂, rfl⟩ : ∃ g, f₂ = g + 1 := ⟨f₂ - 1, by omega⟩
    simp [flattenF, hnil]
  | succ n ih =>
    intro tag hlen f₁ f₂ h₁ h₂
    obtain ⟨g₁, rfl⟩ : ∃ g, f₁ = g + 1 := ⟨f₁ - 1, by omega⟩
    obtain ⟨g₂, rfl⟩ : ∃ g, f₂ = g + 1 := ⟨f₂ - 1, by omega⟩
    simp only [flattenF]
    by_cases hhook : '<' ∈ tag.data
    · simp only [hhook, if_pos]
      cases hsp : splitFirstSpace ((tag.data.drop 1).dropLast) with
      | none => rfl
      | some p =>
        obtain ⟨name, rest⟩ := p
        apply foldlM_except_congr
        intro part hpart acc
        unfold flatten_step
        have hlt : part.data.length < tag.data.length :=
          flatten_child_lt hhook hsp hpart
        rw [ih part (by omega) g₁ g₂ (by omega) (by omega)]
    · simp [hhook]

/-- `flattenF` at any sufficient fuel agrees with `flatten`. -/
theorem flattenF_eq_flatten (f : Nat) (tag : String)
    (h : tag.data.length < f) : flattenF f tag = flatten tag :=
  flattenF_congr tag.data.length tag (Nat.le_refl _) f (tag.data.length + 1) h
    (Nat.lt_succ_self _)

/-- Unfolding `str_concat` on a cons cell. -/
theorem str_concat_cons (s : String) (l : List String) :
    str_concat (s :: l) = s ++ str_concat l := rfl

/-- Flattening every element of a list in the `Except` monad (explicit
recursion, used to state the child results of `flatten`). -/
def mapExcept (F : String → Except String (String × String)) :
    List String → Except String (List (String × String))
  | [] => .ok []
  | p :: parts =>
    match F p with
    | .error e => .error e
    | .ok fl =>
      match mapExcept F parts with
      | .error e => .error e
      | .ok rest => .ok (fl :: rest)

/-- The accumulating loop of `flatten` computes the concatenation of the
child types and child values produced by the recursive calls. -/
theorem foldlM_flatten_step (F : String → Except String (String × String)) :
    ∀ (parts : List String) (pairs : List (String × String)),
      mapExcept F parts = .ok pairs →
      ∀ acc : String × String,
        parts.foldlM (flatten_step F) acc =
          .ok (acc.1 ++ str_concat (pairs.map Prod.fst),
               acc.2 ++ str_concat (pairs.map Prod.snd)) := by
  intro parts
  induction parts with
  | nil =>
    intro pairs h acc
    have hnil : pairs = [] := by
      have : (Except.ok [] : Except String (List (String × String))) = .ok pairs := h
      cases this
      rfl
    subst hnil
    show Except.ok acc = _
    have h1 : str_concat ([] : List String) = "" := rfl
    simp [h1]
  | cons p parts ih =>
    intro pairs h acc
    unfold mapExcept at h
    cases hp : F p with
    | error e => rw [hp] at h; cases h
    | ok fl =>
      rw [hp] at h
      cases hps : mapExcept F parts with
      | error e => rw [hps] at h; cases h
      | ok pairs' =>
        rw [hps] at h
        have hpairs : pairs = fl :: pairs' := by cases h; rfl
        subst hpairs
        rw [List.foldlM_cons]
        have hstep : flatten_step F acc p = .ok (acc.1 ++ fl.1, acc.2 ++ fl.2) := by
          unfold flatten_step
          rw [hp]
          rfl
        rw [hstep]
        show parts.foldlM (flatten_step F) (acc.1 ++ fl.1, acc.2 ++ fl.2) = _
        rw [ih pairs' hps (acc.1 ++ fl.1, acc.2 ++ fl.2)]
        simp only [List.map_cons, str_concat_cons, String.append_assoc]

/-- C3: `flatten tag` returns `("", tag)` whenever `tag` contains no `<`;
otherwise (when the hook-stripped head splits at a first space into the outer
type name and the rest), it returns the pair whose type is the outer type name
followed by the concatenation, in document order with no separator, of the
types of all children of `split_tags`, and whose value is the concatenation of
all child values; in particular
`flatten "<INITIAL A <NAME Surname>>" = ("INITIALNAME", "A Surname")`. -/
theorem flatten_spec :
    (∀ tag : String, '<' ∉ tag.data → flatten tag = .ok ("", tag)) ∧
    (∀ (tag : String) (name rest : List Char) (pairs : List (String × String)),
      '<' ∈ tag.data →
      splitFirstSpace ((tag.data.drop 1).dropLast) = some (name, rest) →
      mapExcept flatten (split_tags (String.mk rest)) = .ok pairs →
      flatten tag = .ok (String.mk name ++ str_concat (pairs.map Prod.fst),
                         str_concat (pairs.map Prod.snd))) ∧
    flatten "<INITIAL A <NAME Surname>>" = .ok ("INITIALNAME", "A Surname") := by
  refine ⟨?_, ?_, ?_⟩
  · intro tag h
    unfold flatten flattenF
    simp [h]
  · intro tag name rest pairs hhook hsp hchildren
    unfold flatten
    conv_lhs => rw [flattenF]
    rw [if_pos hhook, hsp]
    show (split_tags (String.mk rest)).foldlM
        (flatten_step (flattenF tag.data.length)) (String.mk name, "") = _
    have hstep : (split_tags (String.mk rest)).foldlM
        (flatten_step (flattenF tag.data.length)) (String.mk name, "") =
        (split_tags (String.mk rest)).foldlM (flatten_step flatten)
          (String.mk name, "") := by
      apply foldlM_except_congr
      intro part hpart acc
      unfold flatten_step
      rw [flattenF_eq_flatten tag.data.length part (flatten_child_lt hhook hsp hpart)]
    rw [hstep, foldlM_flatten_step flatten _ pairs hchildren (String.mk name, "")]
    have hempty : ("" : String) ++ str_concat (pairs.map Prod.snd) =
        str_concat (pairs.map Prod.snd) := by
      apply String.ext
      simp [String.data_append]
    rw [hempty]
  · rfl

/-- Witness for C3: both hypothetical branches instantiated on concrete tags. -/
theorem flatten_spec_witness :
    flatten "plain" = .ok ("", "plain") ∧ flatten "<NAME John>" = .ok ("NAME", "John") := by
  constructor
  · exact flatten_spec.1 "plain" (by decide)
  · have h := flatten_spec.2.1 "<NAME John>" "NAME".data "John".data [("", "John")]
      (by decide) (by rfl) (by rfl)
    exact h.trans rfl

-- ### flatten_text_all_phi

/-- Python `s.strip()` (utility.py line 156), ASCII whitespace part. -/
def pyStrip (s : String) : String :=
  String.mk (((s.data.dropWhile pyIsSpace).reverse.dropWhile pyIsSpace).reverse)

/-- Fuel-indexed Python `text.replace(pat, rep)`: replaces every
non-overlapping occurrence of `pat`, scanning left to right and continuing
after each replacement.  The fuel `s.length` always suffices because `pat` at
the call sites (tags from `find_tags`) is nonempty; Python's special handling
of an empty pattern is not modelled (an empty pattern leaves `s` unchanged
here). -/
def replaceAllF (pat rep : List Char) : Nat → List Char → List Char
  | 0, s => s
  | fuel + 1, s =>
    match s with
    | [] => []
    | c :: cs =>
      if pat ≠ [] ∧ pat.isPrefixOf (c :: cs) then
        rep ++ replaceAllF pat rep fuel ((c :: cs).drop pat.length)
      else
        c :: replaceAllF pat rep fuel cs

/-- Python `s.replace(pat, rep)` for the nonempty patterns used here. -/
def replaceAll (pat rep s : List Char) : List Char := replaceAllF pat rep s.length s

/-- Python `to_flatten.sort(key=lambda x: -len(x))` (utility.py line 151):
stable sort, longest strings first.  Insertion sort with `b.length ≤ a.length`
is stable and places longer strings first, like Python's stable `list.sort`
with key `-len`. -/
def sortTagsDesc (l : List String) : List String :=
  List.insertionSort (fun a b => b.length ≤ a.length) l

/-- `flatten_text_all_phi` (utility.py lines 144-158): replace every maximal
top-level tag, processed longest first, by a single tag built from the
outermost category (`parse_tag`) and the flattened, stripped value
(`flatten`). -/
def flatten_text_all_phi (text : String) : Except String String :=
  (sortTagsDesc (find_tags text)).foldlM (fun txt tag =>
    match flatten tag with
    | .error e => .error e
    | .ok fl =>
      match parse_tag tag with
      | .error e => .error e
      | .ok pt =>
        .ok (String.mk (replaceAll tag.data
          ("<" ++ pt.1 ++ " " ++ pyStrip fl.2 ++ ">").data txt.data))) text

/-- Replacement step as C4 words it: the tag is replaced, in the output
string, by a single tag whose type is the outermost tag's own category
(`parse_tag tag`) and whose value is the recursively flattened value
(`flatten tag`) with leading and trailing whitespace trimmed. -/
def claimReplaceStep (txt tag : String) : Except String String := do
  let fl ← flatten tag
  let pt ← parse_tag tag
  pure (String.mk (replaceAll tag.data
    ("<" ++ pt.1 ++ " " ++ pyStrip fl.2 ++ ">").data txt.data))

/-- C4: `flatten_text_all_phi` performs, for every maximal top-level tag found
by `find_tags` (longest first), exactly the claim's replacement step; in
particular the nested `PERSOON`/`ACHTERNAAM` example flattens as claimed. -/
theorem flatten_text_all_phi_spec :
    (∀ text : String, flatten_text_all_phi text =
      (sortTagsDesc (find_tags text)).foldlM claimReplaceStep text) ∧
    flatten_text_all_phi "Patient <PERSOON Jan <ACHTERNAAM Jansen>> is opgenomen" =
      .ok "Patient <PERSOON Jan Jansen> is opgenomen" := by
  constructor
  · intro text
    apply foldlM_except_congr
    intro tag _ txt
    unfold claimReplaceStep
    cases hf : flatten tag with
    | error e => simp [hf, Bind.bind, Except.bind]
    | ok fl =>
      cases hp : parse_tag tag with
      | error e => simp [hf, hp, Bind.bind, Except.bind]
      | ok pt => simp [hf, hp, Bind.bind, Except.bind, pure, Except.pure]
  · rfl

-- ### AnnotationIndexer

/-- Final output record (utility.py lines 12-29): `{start, end, tag, text}`
with `end` exclusive, offsets in raw-text coordinates; equality is structural
over all four fields, as in the source's `__eq__`. -/
structure Annotation where
  start_ix : Nat
  end_ix : Nat
  tag : String
  text_ : String
deriving DecidableEq

/-- Python `s.index(sub, i)` scanning: first position `≥ i` where `sub`
starts, `none` when absent (the source raises `ValueError`).  Called with the
suffix `s.drop i` and absolute base `i`, it returns the absolute index. -/
def findSub (sub : List Char) : List Char → Nat → Option Nat
  | [], i => if sub.isPrefixOf ([] : List Char) then some i else none
  | c :: t, i => if sub.isPrefixOf (c :: t) then some i else findSub sub t (i + 1)

/-- Loop of `get_annotations` (utility.py lines 389-405): `ix` is the search
cursor into the annotated text, `raw_text_ix` the raw-text cursor; Python's
`tag_ix = annotated_text.index(tag, ix) - ix` is `found_ix - ix`.  A tag that
cannot be located yields the spec's `TagNotFound` error (the source raises
`ValueError` from `str.index`). -/
def get_annotations_go (annotated_text : List Char) :
    List String → Nat → Nat → List Annotation → Except String (List Annotation)
  | [], _, _, annotations => .ok annotations
  | tag :: tags, ix, raw_text_ix, annotations =>
    match findSub tag.data (annotated_text.drop ix) ix with
    | none => .error "TagNotFound"
    | some found_ix =>
      match parse_tag tag with
      | .error e => .error e
      | .ok pt =>
        get_annotations_go annotated_text tags
          (ix + (found_ix - ix) + tag.data.length)
          (raw_text_ix + (found_ix - ix) + pt.2.length)
          (annotations ++ [⟨raw_text_ix + (found_ix - ix),
            raw_text_ix + (found_ix - ix) + pt.2.length, pt.1, pt.2⟩])

/-- `get_annotations` (utility.py lines 380-405): structured annotations from
tags, with indices pointing into the original raw text. -/
def get_annotations (annotated_text : String) (tags : List String)
    (n_leading_whitespaces : Nat) : Except String (List Annotation) :=
  get_annotations_go annotated_text.data tags 0 n_leading_whitespaces []

/-- `get_first_non_whitespace` (utility.py lines 408-409):
`text.index(text.lstrip()[0])`.  Indexing an empty `lstrip` result raises in
the source (`IndexError`); the spec calls this `EmptyOrWhitespaceOnly`. -/
def get_first_non_whitespace (text : String) : Except String Nat :=
  match text.data.dropWhile pyIsSpace with
  | [] => .error "EmptyOrWhitespaceOnly"
  | c :: _ =>
    match text.data.findIdx? (fun x => x = c) with
    | none => .error "ValueError"
    | some i => .ok i

/-- Structure of a successful `get_annotations_go` run: one new record per
tag, in order, each carrying the parse of its tag and a span of exactly the
value's length. -/
theorem get_annotations_go_spec (s : List Char) :
    ∀ (tags : List String) (ix raw : Nat) (acc anns : List Annotation),
      get_annotations_go s tags ix raw acc = .ok anns →
      ∃ news, anns = acc ++ news ∧ news.length = tags.length ∧
        ∀ (k : Nat) (hk : k < tags.length) (hk' : k < news.length),
          ∃ (st : Nat) (ty tx : String),
            parse_tag (tags.get ⟨k, hk⟩) = .ok (ty, tx) ∧
            news.get ⟨k, hk'⟩ = ⟨st, st + tx.length, ty, tx⟩ := by
  intro tags
  induction tags with
  | nil =>
    intro ix raw acc anns h
    have hacc : anns = acc := by cases h; rfl
    refine ⟨[], by simp [hacc], rfl, ?_⟩
    intro k hk
    exact absurd hk (Nat.not_lt_zero k)
  | cons tag tags ih =>
    intro ix raw acc anns h
    unfold get_annotations_go at h
    cases hfind : findSub tag.data (s.drop ix) ix with
    | none => rw [hfind] at h; cases h
    | some found_ix =>
      rw [hfind] at h
      cases hp : parse_tag tag with
      | error e => rw [hp] at h; cases h
      | ok pt =>
        rw [hp] at h
        obtain ⟨news', hanns, hlen, hidx⟩ := ih _ _ _ _ h
        refine ⟨⟨raw + (found_ix - ix), raw + (found_ix - ix) + pt.2.length,
          pt.1, pt.2⟩ :: news', ?_, by simp [hlen], ?_⟩
        · rw [hanns]
          simp
        · intro k hk hk'
          cases k with
          | zero =>
            exact ⟨raw + (found_ix - ix), pt.1, pt.2, hp, rfl⟩
          | succ k =>
            have hk1 : k < tags.length := Nat.lt_of_succ_lt_succ hk
            have hk2 : k < news'.length := Nat.lt_of_succ_lt_succ hk'
            obtain ⟨st, ty, tx, h1, h2⟩ := hidx k hk1 hk2
            exact ⟨st, ty, tx, h1, h2⟩

/-- C5: on success every supplied tag yields exactly one record, whose type
and text come from `parse_tag` and whose end offset is the start offset plus
the value's length; in particular
`get_annotations "He is <NAME John>." ["<NAME John>"] 0` is the single record
`{start=6, end=10, tag="NAME", text="John"}`. -/
theorem get_annotations_spec :
    (∀ (annotated_text : String) (tags : List String) (n : Nat)
       (anns : List Annotation),
       get_annotations annotated_text tags n = .ok anns →
       anns.length = tags.length ∧
       ∀ (k : Nat) (hk : k < tags.length) (hk' : k < anns.length),
         ∃ (st : Nat) (ty tx : String),
           parse_tag (tags.get ⟨k, hk⟩) = .ok (ty, tx) ∧
           anns.get ⟨k, hk'⟩ = ⟨st, st + tx.length, ty, tx⟩) ∧
    get_annotations "He is <NAME John>." ["<NAME John>"] 0 =
      .ok [⟨6, 10, "NAME", "John"⟩] := by
  constructor
  · intro annotated_text tags n anns h
    obtain ⟨news, hanns, hlen, hidx⟩ :=
      get_annotations_go_spec annotated_text.data tags 0 n [] anns h
    have hanns' : anns = news := by simpa using hanns
    subst hanns'
    exact ⟨hlen, hidx⟩
  · rfl

/-- Witness for C5's hypothetical part, at the claim's own example. -/
theorem get_annotations_spec_witness :
    ([(⟨6, 10, "NAME", "John"⟩ : Annotation)]).length = ["<NAME John>"].length :=
  (get_annotations_spec.1 "He is <NAME John>." ["<NAME John>"] 0
    [⟨6, 10, "NAME", "John"⟩] get_annotations_spec.2).1

/-- C10: every record produced by a successful `get_annotations` call has
`end_ix - start_ix = text_.length`: the recorded span length equals the
length of the recorded text. -/
theorem get_annotations_span_length :
    ∀ (annotated_text : String) (tags : List String) (n : Nat)
      (anns : List Annotation),
      get_annotations annotated_text tags n = .ok anns →
      ∀ a ∈ anns, a.end_ix - a.start_ix = a.text_.length := by
  intro annotated_text tags n anns h a ha
  obtain ⟨news, hanns, hlen, hidx⟩ :=
    get_annotations_go_spec annotated_text.data tags 0 n [] anns h
  have hanns' : anns = news := by simpa using hanns
  subst hanns'
  obtain ⟨k, hk'⟩ := List.mem_iff_get.mp ha
  have hklen : k.val < tags.length := by
    have := k.isLt
    omega
  obtain ⟨st, ty, tx, _, h2⟩ := hidx k.val hklen k.isLt
  have : a = ⟨st, st + tx.length, ty, tx⟩ := by
    rw [← hk']
    exact h2
  rw [this]
  simp

/-- Witness for C10 at the claim's example input. -/
theorem get_annotations_span_length_witness :
    (⟨6, 10, "NAME", "John"⟩ : Annotation).end_ix -
      (⟨6, 10, "NAME", "John"⟩ : Annotation).start_ix =
      (⟨6, 10, "NAME", "John"⟩ : Annotation).text_.length :=
  get_annotations_span_length "He is <NAME John>." ["<NAME John>"] 0
    [⟨6, 10, "NAME", "John"⟩] rfl ⟨6, 10, "NAME", "John"⟩ (List.mem_singleton.mpr rfl)

/-- The first index of a space is the length of the space-free initial run. -/
theorem findIdx_space_eq :
    ∀ (cs : List Char), ' ' ∈ cs →
      cs.findIdx? (fun c => c = ' ') =
        some ((cs.takeWhile (fun c => c ≠ ' ')).length) := by
  intro cs
  induction cs with
  | nil => intro h; cases h
  | cons c cs ih =>
    intro h
    by_cases hc : c = ' '
    · simp [List.findIdx?_cons, List.takeWhile_cons, hc]
    · have hmem : ' ' ∈ cs := by
        rcases List.mem_cons.mp h with h' | h'
        · exact absurd h'.symm hc
        · exact h'
      simp [List.findIdx?_cons, List.takeWhile_cons, hc, ih hmem]

/-- Decomposing the slices of `parse_tag` along the first-space split. -/
theorem take_drop_split_at (cs tw dw : List Char) (hsplit : tw ++ dw = cs) :
    (cs.take tw.length).drop 1 = tw.drop 1 ∧
    (cs.take (cs.length - 1)).drop (tw.length + 1) = (dw.drop 1).dropLast := by
  subst hsplit
  constructor
  · rw [List.take_left]
  · rw [List.drop_take]
    have h1 : (tw ++ dw).drop (tw.length + 1) = dw.drop 1 := by
      rw [List.drop_append_eq_append_drop, List.drop_eq_nil_of_le (Nat.le_succ _)]
      simp
    rw [h1, List.dropLast_eq_take, List.length_drop, List.length_append]
    congr 1
    omega

/-- C8 (amended): `parse_tag` fails with `MalformedTag` on any string without
a whitespace character (such a string has no space); on a string containing a
space it splits at the first SPACE character (not at the first whitespace in
general): the type is the text between the opening hook and the first space,
the value the text between that space and the closing hook. -/
theorem parse_tag_spec :
    (∀ tag : String, (∀ c ∈ tag.data, pyIsSpace c = false) →
      parse_tag tag = .error "MalformedTag") ∧
    (∀ tag : String, ' ' ∈ tag.data →
      parse_tag tag = .ok
        (String.mk ((tag.data.takeWhile (fun c => c ≠ ' ')).drop 1),
         String.mk (((tag.data.dropWhile (fun c => c ≠ ' ')).drop 1).dropLast))) := by
  constructor
  · intro tag h
    unfold parse_tag
    have hnone : tag.data.findIdx? (fun c => c = ' ') = none := by
      rw [List.findIdx?_eq_none_iff]
      intro x hx
      have hws := h x hx
      simp only [pyIsSpace, Bool.or_eq_false_iff, decide_eq_false_iff_not] at hws
      simp [hws.1.1.1.1.1]
    rw [hnone]
  · intro tag h
    have hred : parse_tag tag = .ok
        (String.mk ((tag.data.take
          ((tag.data.takeWhile (fun c => c ≠ ' ')).length)).drop 1),
         String.mk ((tag.data.take (tag.data.length - 1)).drop
          ((tag.data.takeWhile (fun c => c ≠ ' ')).length + 1))) := by
      unfold parse_tag
      rw [findIdx_space_eq tag.data h]
    rw [hred]
    obtain ⟨h1, h2⟩ := take_drop_split_at tag.data
      (tag.data.takeWhile (fun c => c ≠ ' ')) (tag.data.dropWhile (fun c => c ≠ ' '))
      (List.takeWhile_append_dropWhile (fun c => c ≠ ' ') tag.data)
    rw [h1, h2]

/-- Witness for C8's theorem at concrete inputs. -/
theorem parse_tag_spec_witness :
    parse_tag "abc" = .error "MalformedTag" ∧
    parse_tag "<NAME John>" = .ok ("NAME", "John") := by
  constructor
  · exact parse_tag_spec.1 "abc" (by decide)
  · exact (parse_tag_spec.2 "<NAME John>" (by decide)).trans rfl

/-- Counterexample for C8 as stated: on `"<A\t B>"` (a tab before the first
space) the code splits at the first space, returning `("A\t", "B")`, not at
the first whitespace character (the tab), which would give `("A", " B")`. -/
theorem parse_tag_whitespace_counterexample :
    parse_tag "<A\t B>" = .ok ("A\t", "B") ∧
    ¬ parse_tag "<A\t B>" = .ok ("A", " B") := by
  constructor
  · rfl
  · decide

/-- The head of a `dropWhile` result fails the predicate. -/
theorem dropWhile_head_false (p : Char → Bool) :
    ∀ (cs : List Char) (c : Char) (r : List Char),
      cs.dropWhile p = c :: r → p c = false := by
  intro cs
  induction cs with
  | nil => intro c r h; cases h
  | cons a cs ih =>
    intro c r h
    rw [List.dropWhile_cons] at h
    by_cases ha : p a
    · rw [if_pos ha] at h
      exact ih c r h
    · rw [if_neg ha] at h
      cases h
      exact Bool.of_not_eq_true ha

/-- Searching for the first character of the left-trimmed text finds exactly
the first non-whitespace position (all earlier characters are whitespace and
that character is not). -/
theorem findIdx_head_dropWhile :
    ∀ (cs : List Char) (c : Char) (r : List Char),
      cs.dropWhile pyIsSpace = c :: r →
      cs.findIdx? (fun x => x = c) = some ((cs.takeWhile pyIsSpace).length) := by
  intro cs
  induction cs with
  | nil => intro c r h; cases h
  | cons a cs ih =>
    intro c r h
    rw [List.dropWhile_cons] at h
    by_cases ha : pyIsSpace a
    · rw [if_pos ha] at h
      have hc : pyIsSpace c = false := dropWhile_head_false pyIsSpace cs c r h
      have hne : ¬ (a = c) := by
        intro hac
        rw [hac, hc] at ha
        cases ha
      simp [List.findIdx?_cons, hne, List.takeWhile_cons, ha, ih c r h]
    · rw [if_neg ha] at h
      cases h
      simp [List.findIdx?_cons, List.takeWhile_cons, ha]

/-- C9: on a text with at least one non-whitespace character,
`get_first_non_whitespace` returns the position of the first character of the
left-trimmed text (the first non-whitespace position); on an all-whitespace
text (including the empty text) it fails with `EmptyOrWhitespaceOnly`. -/
theorem get_first_non_whitespace_spec :
    (∀ text : String, (∃ c ∈ text.data, pyIsSpace c = false) →
      get_first_non_whitespace text = .ok ((text.data.takeWhile pyIsSpace).length)) ∧
    (∀ text : String, (∀ c ∈ text.data, pyIsSpace c = true) →
      get_first_non_whitespace text = .error "EmptyOrWhitespaceOnly") := by
  constructor
  · intro text h
    unfold get_first_non_whitespace
    cases hdw : text.data.dropWhile pyIsSpace with
    | nil =>
      obtain ⟨c, hc, hcf⟩ := h
      have := List.dropWhile_eq_nil_iff.mp hdw c hc
      rw [hcf] at this
      cases this
    | cons c r =>
      show (match text.data.findIdx? (fun x => x = c) with
        | none => (Except.error "ValueError" : Except String Nat)
        | some i => Except.ok i) = Except.ok ((text.data.takeWhile pyIsSpace).length)
      rw [findIdx_head_dropWhile text.data c r hdw]
  · intro text h
    unfold get_first_non_whitespace
    have hdw : text.data.dropWhile pyIsSpace = [] :=
      List.dropWhile_eq_nil_iff.mpr h
    rw [hdw]

/-- Witness for C9 at concrete inputs. -/
theorem get_first_non_whitespace_spec_witness :
    get_first_non_whitespace "  ab" = .ok 2 ∧
    get_first_non_whitespace " " = .error "EmptyOrWhitespaceOnly" := by
  constructor
  · exact (get_first_non_whitespace_spec.1 "  ab" (by decide)).trans rfl
  · exact get_first_non_whitespace_spec.2 " " (by decide)

-- ### TrieMerger

/-- Modelled from the spec: the `Trie` class (in `deduce/utilcls.py`, not part
of the sources here) is an immutable prefix tree over token sequences whose
`find_all_prefixes` lookup returns every registered sequence that is a prefix
of the queried remaining token sequence.  `words` is the trie's content (its
registered sequences). -/
def trieLookup (words : List (List String)) (rest : List String) :
    List (List String) :=
  words.filter (fun w => w.isPrefixOf rest)

/-- One comparison step of Python's `max(prefix_matches, key=len)`: keep the
current candidate unless the next one is strictly longer (so the first
maximal element wins, as in Python). -/
def pick_longer (best y : List String) : List String :=
  if best.length < y.length then y else best

/-- Python `max(prefix_matches, key=len)` (utility.py line 59), on a nonempty
list; `[]` is returned for an empty list (never reached by the source, which
guards on `len(prefix_matches) == 0`). -/
def max_by_len (l : List (List String)) : List String :=
  match l with
  | [] => []
  | x :: xs => xs.foldl pick_longer x

/-- Loop of `merge_triebased` (utility.py lines 42-64): cursor `i`, output
list `tokens_merged` (here `acc`).  The fuel makes the `while` loop a
structural recursion; `tokens.length` suffices whenever each step advances
the cursor, and running out of fuel while `i < len(tokens)` yields `none`
(the loop would not have finished). -/
def mergeGo (tokens : List String)
    (find_all_prefixes : List String → List (List String)) :
    Nat → Nat → List String → Option (List String)
  | 0, i, acc => if i < tokens.length then none else some acc
  | fuel + 1, i, acc =>
    if h : i < tokens.length then
      if (find_all_prefixes (tokens.drop i)).length = 0 then
        mergeGo tokens find_all_prefixes fuel (i + 1) (acc ++ [tokens.get ⟨i, h⟩])
      else
        mergeGo tokens find_all_prefixes fuel
          (i + (max_by_len (find_all_prefixes (tokens.drop i))).length)
          (acc ++ [str_concat (max_by_len (find_all_prefixes (tokens.drop i)))])
    else some acc

/-- `merge_triebased` (utility.py lines 32-64): merges all sublists of tokens
found in the trie into single concatenated tokens.  The trie argument is its
`find_all_prefixes` lookup, the only operation the source uses. -/
def merge_triebased (tokens : List String)
    (find_all_prefixes : List String → List (List String)) :
    Option (List String) :=
  mergeGo tokens find_all_prefixes tokens.length 0 []

/-- Termination of the merge loop on given tokens and trie content: some fuel
suffices to finish the scan. -/
def merge_terminates (tokens : List String) (words : List (List String)) : Prop :=
  ∃ (fuel : Nat) (out : List String),
    mergeGo tokens (trieLookup words) fuel 0 [] = some out

/-- The fold computing Python's `max` stays inside the candidates. -/
theorem pick_foldl_mem :
    ∀ (xs : List (List String)) (x : List String),
      xs.foldl pick_longer x ∈ x :: xs := by
  intro xs
  induction xs with
  | nil => intro x; simp
  | cons y ys ih =>
    intro x
    rw [List.foldl_cons]
    have h := ih (pick_longer x y)
    rcases List.mem_cons.mp h with h' | h'
    · rw [h']
      by_cases hp : x.length < y.length
      · simp [pick_longer, hp]
      · simp [pick_longer, hp]
    · exact List.mem_cons_of_mem x (List.mem_cons_of_mem y h')

/-- Python's `max(l, key=len)` returns an element of `l`. -/
theorem max_by_len_mem (l : List (List String)) (h : l ≠ []) :
    max_by_len l ∈ l := by
  match l with
  | [] => exact absurd rfl h
  | x :: xs => exact pick_foldl_mem xs x

/-- When the selected match is the empty sequence, the cursor does not
advance and the loop never terminates, whatever the fuel. -/
theorem mergeGo_stuck (tokens : List String)
    (f : List String → List (List String)) (i : Nat)
    (hi : i < tokens.length) (hne : (f (tokens.drop i)).length ≠ 0)
    (hmax : max_by_len (f (tokens.drop i)) = []) :
    ∀ (fuel : Nat) (acc : List String), mergeGo tokens f fuel i acc = none := by
  intro fuel
  induction fuel with
  | zero => intro acc; simp [mergeGo, hi]
  | succ fuel ih =>
    intro acc
    simp only [mergeGo]
    rw [dif_pos hi, if_neg hne, hmax]
    simp only [List.length_nil, Nat.add_zero]
    exact ih _

/-- Invariant of the merge loop: on success, the concatenation of the output
equals the concatenation of the already-emitted tokens and of the tokens not
yet consumed, and the output adds at most one token per remaining input
token. -/
theorem mergeGo_spec (tokens : List String)
    (f : List String → List (List String))
    (hpre : ∀ rest m, m ∈ f rest → m <+: rest) :
    ∀ (fuel i : Nat) (acc out : List String),
      mergeGo tokens f fuel i acc = some out →
      (out.map String.data).flatten =
        (acc.map String.data).flatten ++ ((tokens.drop i).map String.data).flatten ∧
      out.length ≤ acc.length + (tokens.length - i) := by
  intro fuel
  induction fuel with
  | zero =>
    intro i acc out h
    simp only [mergeGo] at h
    by_cases hi : i < tokens.length
    · rw [if_pos hi] at h; cases h
    · rw [if_neg hi] at h
      have hacc : acc = out := by cases h; rfl
      subst hacc
      have hdrop : tokens.drop i = [] :=
        List.drop_eq_nil_of_le (Nat.le_of_not_lt hi)
      simp [hdrop]
  | succ fuel ih =>
    intro i acc out h
    simp only [mergeGo] at h
    by_cases hi : i < tokens.length
    · rw [dif_pos hi] at h
      by_cases hz : (f (tokens.drop i)).length = 0
      · rw [if_pos hz] at h
        obtain ⟨h1, h2⟩ := ih (i + 1) _ out h
        constructor
        · rw [h1]
          have hdropi : tokens.drop i = tokens.get ⟨i, hi⟩ :: tokens.drop (i + 1) :=
            List.drop_eq_get_cons hi
          rw [hdropi]
          simp only [List.map_append, List.map_cons, List.map_nil, List.flatten_append,
            List.flatten_cons, List.flatten_nil, List.append_nil, List.append_assoc]
        · have h2' : out.length ≤ (acc.length + 1) + (tokens.length - (i + 1)) := by
            simpa using h2
          omega
      · rw [if_neg hz] at h
        by_cases hm : max_by_len (f (tokens.drop i)) = []
        · have hstuck := mergeGo_stuck tokens f i hi hz hm fuel
            (acc ++ [str_concat (max_by_len (f (tokens.drop i)))])
          rw [hm, List.length_nil, Nat.add_zero] at h
          rw [hm] at hstuck
          exact absurd (hstuck.symm.trans h) (by simp)
        · have hmem : max_by_len (f (tokens.drop i)) ∈ f (tokens.drop i) :=
            max_by_len_mem _ (fun hnil => hz (by rw [hnil]; rfl))
          obtain ⟨tail, htail⟩ := hpre _ _ hmem
          obtain ⟨h1, h2⟩ := ih _ _ out h
          have hk : 1 ≤ (max_by_len (f (tokens.drop i))).length :=
            Nat.one_le_iff_ne_zero.mpr
              (fun h0 => hm (List.eq_nil_of_length_eq_zero h0))
          constructor
          · rw [h1]
            generalize hg : max_by_len (f (tokens.drop i)) = m at htail ⊢
            have hdrop2 : tokens.drop (i + m.length) = tail := by
              rw [← List.drop_drop m.length i tokens, ← htail, List.drop_left]
            rw [hdrop2, ← htail]
            simp only [List.map_append, List.map_cons, List.flatten_append,
              List.flatten_cons, List.flatten_nil, List.append_nil, List.append_assoc]
            rfl
          · have h2' : out.length ≤ (acc.length + 1) +
                (tokens.length - (i + (max_by_len (f (tokens.drop i))).length)) := by
              simpa using h2
            omega
    · rw [dif_neg hi] at h
      have hacc : acc = out := by cases h; rfl
      subst hacc
      have hdrop : tokens.drop i = [] :=
        List.drop_eq_nil_of_le (Nat.le_of_not_lt hi)
      simp [hdrop]

/-- A trie lookup modelled as registered-word filtering only returns prefixes
of the queried sequence. -/
theorem trieLookup_only_prefixes (words : List (List String))
    (rest m : List String) (h : m ∈ trieLookup words rest) : m <+: rest := by
  unfold trieLookup at h
  have hp : m.isPrefixOf rest = true := by simpa using List.of_mem_filter h
  exact List.isPrefixOf_iff_prefix.mp hp

/-- Members of a trie lookup are registered words of the trie. -/
theorem trieLookup_mem_words (words : List (List String))
    (rest m : List String) (h : m ∈ trieLookup words rest) : m ∈ words :=
  List.mem_of_mem_filter h

/-- C6: for every token list and every prefix lookup that returns only actual
prefixes of the queried remaining tokens, any output of `merge_triebased`
concatenates to exactly the concatenation of the input tokens and is no
longer than the input. -/
theorem merge_triebased_concat (tokens : List String)
    (find_all_prefixes : List String → List (List String))
    (hpre : ∀ rest m, m ∈ find_all_prefixes rest → m <+: rest)
    (out : List String)
    (hout : merge_triebased tokens find_all_prefixes = some out) :
    (out.map String.data).flatten = (tokens.map String.data).flatten ∧
    out.length ≤ tokens.length := by
  obtain ⟨h1, h2⟩ :=
    mergeGo_spec tokens find_all_prefixes hpre tokens.length 0 [] out hout
  constructor
  · simpa using h1
  · simpa using h2

/-- Witness for C6: the spec's own merge example through the theorem. -/
theorem merge_triebased_concat_witness :
    ((["A1"] : List String).map String.data).flatten =
      ((["A", "1"] : List String).map String.data).flatten ∧
    (["A1"] : List String).length ≤ (["A", "1"] : List String).length :=
  merge_triebased_concat ["A", "1"] (trieLookup [["A", "1"]])
    (fun rest m hm => trieLookup_only_prefixes [["A", "1"]] rest m hm)
    ["A1"] (by decide)

/-- A trie containing the empty sequence makes the merge loop select the
empty match and never advance: no amount of fuel finishes the loop. -/
theorem mergeGo_empty_word_diverges :
    ∀ (fuel : Nat) (acc : List String),
      mergeGo ["a"] (trieLookup [[]]) fuel 0 acc = none := by
  intro fuel acc
  exact mergeGo_stuck ["a"] (trieLookup [[]]) 0 (by decide) (by decide) rfl fuel acc

/-- Counterexample to C7 as stated: with the empty token sequence registered
in the trie and input `["a"]`, the merge loop never terminates (Python's
`merge_triebased` loops forever: `max_list` is `[]` and `i` never advances). -/
theorem merge_triebased_diverges_on_empty_word :
    ¬ merge_terminates ["a"] [[]] := by
  intro h
  obtain ⟨fuel, out, hout⟩ := h
  rw [mergeGo_empty_word_diverges fuel []] at hout
  cases hout

/-- With every registered word nonempty, each loop step advances the cursor,
so `tokens.length` fuel always suffices. -/
theorem mergeGo_sufficient_fuel (tokens : List String)
    (words : List (List String)) (hw : ∀ w ∈ words, w ≠ []) :
    ∀ (fuel i : Nat) (acc : List String), tokens.length - i ≤ fuel →
      ∃ out, mergeGo tokens (trieLookup words) fuel i acc = some out := by
  intro fuel
  induction fuel with
  | zero =>
    intro i acc hle
    have hi : ¬ i < tokens.length := by omega
    exact ⟨acc, by simp [mergeGo, hi]⟩
  | succ fuel ih =>
    intro i acc hle
    by_cases hi : i < tokens.length
    · simp only [mergeGo]
      rw [dif_pos hi]
      by_cases hz : (trieLookup words (tokens.drop i)).length = 0
      · rw [if_pos hz]
        exact ih (i + 1) _ (by omega)
      · rw [if_neg hz]
        have hmem := max_by_len_mem (trieLookup words (tokens.drop i))
          (fun hnil => hz (by rw [hnil]; rfl))
        have hne : max_by_len (trieLookup words (tokens.drop i)) ≠ [] :=
          hw _ (trieLookup_mem_words words _ _ hmem)
        have hk : 1 ≤ (max_by_len (trieLookup words (tokens.drop i))).length :=
          Nat.one_le_iff_ne_zero.mpr
            (fun h0 => hne (List.eq_nil_of_length_eq_zero h0))
        exact ih _ _ (by omega)
    · exact ⟨acc, by simp [mergeGo, dif_neg hi]⟩

/-- C7 (amended): `merge_triebased` terminates normally and produces a merged
token list for any token sequence and any trie all of whose registered
sequences are nonempty; a trie containing the empty sequence makes the loop
diverge (see the counterexample). -/
theorem merge_triebased_total (tokens : List String)
    (words : List (List String)) (hw : ∀ w ∈ words, w ≠ []) :
    ∃ out, merge_triebased tokens (trieLookup words) = some out := by
  unfold merge_triebased
  exact mergeGo_sufficient_fuel tokens words hw tokens.length 0 [] (by omega)

/-- Witness for C7's amended theorem on the spec's example trie. -/
theorem merge_triebased_total_witness :
    ∃ out, merge_triebased ["Patient", "is", "opgenomen", "op", "A", "1"]
      (trieLookup [["A", "1"]]) = some out :=
  merge_triebased_total ["Patient", "is", "opgenomen", "op", "A", "1"]
    [["A", "1"]] (by decide)

-- ### AnnotationNormalizer (flatten_text)

/-- Modelled from the spec: the `Span` data model of `deduce/utilcls.py`
(`Token` / `TokenGroup` / `AbstractSpan`, not part of the sources here):
a tokenized unit of text that is plain (`literal`), annotated (`annotated`,
carrying its annotation descriptor), or a composite of sub-spans under one
merged annotation (`group`). -/
inductive Span where
  | literal (text : String)
  | annotated (text : String) (annot : String)
  | group (subs : List Span) (annot : String)

/-- Modelled from the spec: `is_annotation` — literal spans are not
annotations, annotated spans and groups are. -/
def Span.isAnnot : Span → Bool
  | .literal _ => false
  | .annotated _ _ => true
  | .group _ _ => true

/-- Modelled from the spec: `get_full_annotation` — the full annotation
descriptor string (empty for a literal span). -/
def Span.fullAnnot : Span → String
  | .literal _ => ""
  | .annotated _ a => a
  | .group _ a => a

/-- Modelled from the spec: the `annotation` attribute of an annotated span
(reading it on a literal span would fail in the source; the call site in
`flatten_text` only reaches annotated spans). -/
def Span.annot : Span → String
  | .literal _ => ""
  | .annotated _ a => a
  | .group _ a => a

/-- Modelled from the spec: `flatten(with_annotation=w)` — the flattened copy
of a span carrying the final label `w` (step 1 of the normalizer). -/
def Span.flattenWith (w : String) : Span → Span
  | .literal t => .literal t
  | .annotated t _ => .annotated t w
  | .group subs _ => .group subs w

/-- Modelled from the spec: `with_annotation(w)` — the same span with its
annotation replaced by `w` (literal spans are unchanged; the call site guards
on `is_annotation`). -/
def Span.withAnnot (w : String) : Span → Span
  | .literal t => .literal t
  | .annotated t _ => .annotated t w
  | .group subs _ => .group subs w

/-- Modelled from the spec: `without_annotation` — the annotation-stripped
copy of a span. -/
def Span.withoutAnnot : Span → Span
  | .literal t => .literal t
  | .annotated t _ => .literal t
  | .group subs _ => .group subs ""

-- Modelled from the spec: rendering a span back to annotated text
-- (`as_text`): a literal span is its text, an annotated span or group is its
-- content wrapped as `<ANNOT content>`; `list_as_text` renders a list of
-- sub-spans in order.
mutual

def Span.as_text : Span → String
  | .literal t => t
  | .annotated t annot => "<" ++ annot ++ " " ++ t ++ ">"
  | .group subs annot => "<" ++ annot ++ " " ++ Span.list_as_text subs ++ ">"

def Span.list_as_text : List Span → String
  | [] => ""
  | s :: rest => Span.as_text s ++ Span.list_as_text rest

end

/-- `to_text` (utility.py lines 411-412): concatenation of the rendered
spans. -/
def to_text (tokens : List Span) : String :=
  str_concat (tokens.map Span.as_text)

/-- Python's substring test `sub in hay`. -/
def str_contains (hay sub : String) : Bool :=
  decide (sub.data <:+: hay.data)

/-- Character class `[A-Z]` of the merge regex. -/
def isUpperAZ (c : Char) : Bool := 'A' ≤ c && c ≤ 'Z'

/-- Character class `\w` of the merge regex (ASCII part; Python's Unicode
word characters beyond ASCII are not modelled). -/
def isWordAscii (c : Char) : Bool := c.isAlpha || c.isDigit || c = '_'

/-- Character class `[\w.\s,]` of the merge regex. -/
def isValueClass (c : Char) : Bool := isWordAscii c || c = '.' || pyIsSpace c || c = ','

/-- Character class `[.\s\-,]` of the merge regex. -/
def isSepClass (c : Char) : Bool := c = '.' || pyIsSpace c || c = '-' || c = ','

/-- One `<([A-Z]+)\s([\w.\s,]+)>` unit of the merge regex (utility.py line
186), returning the remaining characters on success.  Each character class
excludes the character that follows it in the pattern, so the greedy scan
needs no backtracking and is equivalent to the regex. -/
def matchTagPart (cs : List Char) : Option (List Char) :=
  match cs with
  | '<' :: r1 =>
    if (r1.takeWhile isUpperAZ).isEmpty then none
    else
      match r1.dropWhile isUpperAZ with
      | c :: r3 =>
        if pyIsSpace c then
          if (r3.takeWhile isValueClass).isEmpty then none
          else
            match r3.dropWhile isValueClass with
            | '>' :: r5 => some r5
            | _ => none
        else none
      | [] => none
  | _ => none

/-- `re.fullmatch` of the adjacency pattern
`<([A-Z]+)\s([\w.\s,]+)>([.\s\-,]+)[.\s]*<([A-Z]+)\s([\w.\s,]+)>`
(utility.py line 186): tag, nonempty separator run of `[.\s\-,]` (the trailing
`[.\s]*` is a subset of that class, so the two groups together match exactly a
nonempty run of it), tag, end of string. -/
def matches_adjacent_pattern (cs : List Char) : Bool :=
  match matchTagPart cs with
  | none => false
  | some r5 =>
    if (r5.takeWhile isSepClass).isEmpty then false
    else
      match matchTagPart (r5.dropWhile isSepClass) with
      | none => false
      | some r => r.isEmpty

/-- Adjacency-merge loop of `flatten_text` (utility.py lines 176-191):
`i + 1` is the countdown of `range(len(flattened)-1, -1, -1)` (the body runs
with index `i`), `end_ann_ix` the most recent trailing annotated index.  When
the rendered run matches the adjacency pattern, the source builds the merged
`TokenGroup` and then evaluates `len(flattened-1)` (line 189) — subtracting
an integer from a list — so the call raises `TypeError` before the merged
list can be assembled; the branch is therefore an error. -/
def flatten_text_merge_loop :
    Nat → List Span → Option Nat → Except String (List Span)
  | 0, flattened, _ => .ok flattened
  | i + 1, flattened, end_ann_ix =>
    if h : i < flattened.length then
      if ¬ (flattened.get ⟨i, h⟩).isAnnot then
        flatten_text_merge_loop i flattened end_ann_ix
      else
        match end_ann_ix with
        | none => flatten_text_merge_loop i flattened (some i)
        | some e =>
          if matches_adjacent_pattern
              (to_text ((flattened.drop i).take (e + 1 - i))).data then
            .error "TypeError"
          else
            flatten_text_merge_loop i flattened (some i)
    else .error "IndexError"

/-- `flatten_text` (utility.py lines 161-200): per-span flatten with the
`PAT`-derived label, right-to-left adjacency merge, then the relabel pass
(`PATIENT` if the descriptor contains `PATIENT`, else `PERSOON`). -/
def flatten_text (tokens : List Span) : Except String (List Span) :=
  let flattened := tokens.map (fun token =>
    Span.flattenWith
      (if str_contains (Span.fullAnnot token) "PAT" then "PATIENT" else "PERSOON")
      token)
  match flatten_text_merge_loop flattened.length flattened none with
  | .error e => .error e
  | .ok merged =>
    .ok (merged.map (fun token =>
      if token.isAnnot then
        Span.withAnnot
          (if str_contains (Span.fullAnnot token) "PATIENT" then "PATIENT"
           else "PERSOON")
          token
      else token))

/-- C1 (code bug): on spans rendering `"<INITIAL A>. <NAME Jansen>"`, the
adjacency pattern matches and the source then evaluates `len(flattened-1)`
(utility.py line 189), subtracting an integer from a list: the call raises
`TypeError` instead of producing the merged `Group` span the claim (and the
code's own comments) describe. -/
theorem flatten_text_typeerror_on_adjacent_merge :
    flatten_text [Span.annotated "A" "INITIAL", Span.literal ". ",
      Span.annotated "Jansen" "NAME"] = .error "TypeError" := rfl
